import Mathlib

/-!
Verification of `scripts/check_removed_pages_redirects.py`.

The script compares two parsed JSON documents (`docs.json` at a base and a
head revision), extracts the set of navigation page paths from each, and
checks that every page present in base but absent in head is covered by a
redirect rule in the head document.

We embed the parsed JSON values as the inductive type `J`, and translate each
Python function into a Lean definition of the same name.  Python operations
that can raise (`for x in v` on a non-iterable `v`, `d.get` on a non-dict,
`s.lstrip` on a non-string) are modelled in the `Except Unit` monad, with
`Except.error ()` standing for an uncaught Python exception.
-/

/-- A parsed JSON value, as the script sees it after `json.load`.
`jstr` is a Python `str`, `jarr` a `list`, `jobj` a `dict` (association list
of string keys), and `jother` any other value (`int`, `float`, `bool`,
`None`) — the script only ever distinguishes these four shapes. -/
inductive J where
  | jstr : String → J
  | jarr : List J → J
  | jobj : List (String × J) → J
  | jother : J

/-- Python `for x in v`: succeeds on a list (its elements), a string (its
one-character substrings) and a dict (its keys); raises `TypeError` on any
other value. -/
def iterElems : J → Except Unit (List J)
  | J.jarr xs => Except.ok xs
  | J.jstr s => Except.ok (s.data.map fun c => J.jstr ⟨[c]⟩)
  | J.jobj kvs => Except.ok (kvs.map fun kv => J.jstr kv.1)
  | J.jother => Except.error ()

/-- Python `d.get(k, default)`: raises `AttributeError` unless `d` is a dict. -/
def dictGetD (j : J) (k : String) (d : J) : Except Unit J :=
  match j with
  | J.jobj kvs => Except.ok ((kvs.lookup k).getD d)
  | _ => Except.error ()

/-- The field of a JSON object, `none` when absent or when the value is not
an object (used only to state theorems, not by the embedded code). -/
def lookupField (j : J) (k : String) : Option J :=
  match j with
  | J.jobj kvs => kvs.lookup k
  | _ => none

/-- Python `s.lstrip("/")`: drop every leading `'/'` character. -/
def lstripSlash (l : List Char) : List Char := l.dropWhile fun c => c = '/'

/-- The character list of the suffix `".mdx"`. -/
def mdxChars : List Char := ['.', 'm', 'd', 'x']

/-- Python `s.removesuffix(".mdx")`: drop a single trailing `".mdx"` if the
string ends with it. -/
def removesuffixMdx (l : List Char) : List Char :=
  if mdxChars.isSuffixOf l then l.take (l.length - 4) else l

/-- `normalize_page_for_comparison` from the script:
`path.lstrip("/").removesuffix(".mdx")`. -/
def normalize_page_for_comparison (path : String) : String :=
  ⟨removesuffixMdx (lstripSlash path.data)⟩

/-- The inline empty-to-`"index"` mapping used on both sides of the
comparison inside `has_redirect_for_page`. -/
def normalizeOrIndex (s : String) : String :=
  let n := normalize_page_for_comparison s
  if n = "" then "index" else n

/-- Python `str(v)`-typed use of a JSON value: the matcher calls `.lstrip`
on the redirect's `source` value, which raises unless it is a string. -/
def asString : J → Except Unit String
  | J.jstr s => Except.ok s
  | _ => Except.error ()

/-- The loop of `has_redirect_for_page`, with the normalized page path
already computed: scan the redirect entries in order, take each entry's
`source` field (default `""`), normalize it (empty ↦ `"index"`) and compare. -/
def hasRedirectAux (pageNormalized : String) : List J → Except Unit Bool
  | [] => Except.ok false
  | r :: rest => do
      let sourceVal ← dictGetD r "source" (J.jstr "")
      let source ← asString sourceVal
      let sourceNormalized := normalizeOrIndex source
      if sourceNormalized = pageNormalized then Except.ok true
      else hasRedirectAux pageNormalized rest

/-- `has_redirect_for_page` from the script. -/
def has_redirect_for_page (page_path : String) (redirects : List J) :
    Except Unit Bool :=
  hasRedirectAux (normalizeOrIndex page_path) redirects

/-- `Bind.bind` on a successful `Except` computation, for rewriting. -/
theorem ebind_ok {α β ε : Type} (a : α) (f : α → Except ε β) :
    (Except.ok a : Except ε α) >>= f = f a := rfl

/-- `Bind.bind` on a failed `Except` computation, for rewriting. -/
theorem ebind_err {α β ε : Type} (e : ε) (f : α → Except ε β) :
    (Except.error e : Except ε α) >>= f = Except.error e := rfl

instance exceptDecEq {ε α : Type} [DecidableEq ε] [DecidableEq α] :
    DecidableEq (Except ε α)
  | Except.ok a, Except.ok b => decidable_of_iff (a = b) (by simp)
  | Except.ok _, Except.error _ => isFalse (by simp)
  | Except.error _, Except.ok _ => isFalse (by simp)
  | Except.error e, Except.error f => decidable_of_iff (e = f) (by simp)

/-- Size measure used only to justify termination of the recursive page
extraction: strings and scalars weigh nothing, lists and objects weigh one
plus their contents. -/
def pageM : J → Nat
  | J.jstr _ => 0
  | J.jother => 0
  | J.jarr xs => 1 + (xs.attach.map fun x => pageM x.1).sum
  | J.jobj kvs => 1 + (kvs.attach.map fun kv => pageM kv.1.2).sum
decreasing_by
  · exact Nat.lt_of_lt_of_le (List.sizeOf_lt_of_mem x.2) (by simp [J.jarr.sizeOf_spec])
  · have h := List.sizeOf_lt_of_mem kv.2
    have h2 : sizeOf kv.1.2 < sizeOf kv.1 := by
      cases kv.1 with | mk a b => simp
    simp only [J.jobj.sizeOf_spec]
    omega

theorem pageM_jstr (s : String) : pageM (J.jstr s) = 0 := by rw [pageM]

theorem pageM_jother : pageM J.jother = 0 := by rw [pageM]

theorem pageM_jarr (xs : List J) : pageM (J.jarr xs) = 1 + (xs.map pageM).sum := by
  rw [pageM]
  congr 1
  exact congrArg List.sum (List.attach_map_coe xs pageM)

theorem pageM_jobj (kvs : List (String × J)) :
    pageM (J.jobj kvs) = 1 + (kvs.map fun kv => pageM kv.2).sum := by
  rw [pageM]
  congr 1
  exact congrArg List.sum (List.attach_map_coe kvs fun kv => pageM kv.2)

/-- The elements a successful Python iteration yields weigh no more than the
iterated value. -/
theorem pm_iter {pv : J} {ys : List J} (h : iterElems pv = Except.ok ys) :
    (ys.map pageM).sum ≤ pageM pv := by
  cases pv with
  | jarr xs =>
      simp only [iterElems, Except.ok.injEq] at h
      subst h
      rw [pageM_jarr]
      omega
  | jstr s =>
      simp only [iterElems, Except.ok.injEq] at h
      subst h
      rw [List.map_map,
        show (pageM ∘ fun c => J.jstr ⟨[c]⟩) = fun _ => (0 : Nat) from
          funext fun c => pageM_jstr _]
      simp
  | jobj kvs =>
      simp only [iterElems, Except.ok.injEq] at h
      subst h
      rw [List.map_map,
        show (pageM ∘ fun kv : String × J => J.jstr kv.1) = fun _ => (0 : Nat) from
          funext fun kv => pageM_jstr _]
      simp [pageM_jobj]
  | jother => simp [iterElems] at h

/-- A value found in an association list weighs no more than the whole list
of values. -/
theorem pm_lookup {kvs : List (String × J)} {k : String} {pv : J}
    (h : kvs.lookup k = some pv) :
    pageM pv ≤ (kvs.map fun kv => pageM kv.2).sum := by
  induction kvs with
  | nil => simp [List.lookup] at h
  | cons kv rest ih =>
      rw [List.lookup] at h
      by_cases hk : k == kv.1
      · simp [hk] at h
        subst h
        simp
      · simp [hk] at h
        have := ih h
        simp
        omega

/-- `extract_pages_from_pages_array` from the script: walk the elements of a
`pages` array; a string is a page path, a dict with a `"pages"` key is a
group whose `pages` value is iterated and collected recursively, anything
else is skipped. -/
def extract_pages_from_pages_array : List J → Except Unit (Finset String)
  | [] => Except.ok ∅
  | J.jstr s :: rest => do
      let r ← extract_pages_from_pages_array rest
      Except.ok (insert s r)
  | J.jobj kvs :: rest =>
      (match h : kvs.lookup "pages" with
       | some pv =>
         (match h2 : iterElems pv with
          | Except.ok ys => do
              let sub ← extract_pages_from_pages_array ys
              let r ← extract_pages_from_pages_array rest
              Except.ok (sub ∪ r)
          | Except.error e => Except.error e)
       | none => extract_pages_from_pages_array rest)
  | J.jarr _ :: rest => extract_pages_from_pages_array rest
  | J.jother :: rest => extract_pages_from_pages_array rest
termination_by l => ((l.map pageM).sum, l.length)
decreasing_by
  · simp_wf
    rw [Prod.lex_iff]
    simp [pageM_jstr]
  · simp_wf
    rw [Prod.lex_iff]
    left
    have h3 := pm_iter h2
    have h4 := pm_lookup h
    simp only [List.map_cons, List.sum_cons, pageM_jobj]
    omega
  · simp_wf
    rw [Prod.lex_iff]
    left
    simp only [List.map_cons, List.sum_cons, pageM_jobj]
    omega
  · simp_wf
    rw [Prod.lex_iff]
    left
    simp only [List.map_cons, List.sum_cons, pageM_jobj]
    omega
  · simp_wf
    rw [Prod.lex_iff]
    left
    simp only [List.map_cons, List.sum_cons, pageM_jarr]
    omega
  · simp_wf
    rw [Prod.lex_iff]
    simp [pageM_jother]

/-- Iterate a `pages` value and collect its page paths
(`extract_pages_from_pages_array(v)` applied to a raw field value `v`,
with Python's `for` doing the iteration). -/
def extractPagesVal (pv : J) : Except Unit (Finset String) := do
  let ys ← iterElems pv
  extract_pages_from_pages_array ys

/-- A group entry of the navigation: contributes its `pages` when it is a
dict carrying that key, nothing otherwise.  The script uses this same shape
for groups inside tabs, for tabs inside dropdowns and for groups of a
product. -/
def extractGroup (g : J) : Except Unit (Finset String) :=
  match g with
  | J.jobj kvs =>
      (match kvs.lookup "pages" with
       | some pv => extractPagesVal pv
       | none => Except.ok ∅)
  | _ => Except.ok ∅

/-- Sequentially collect and union the contributions of a list of entries,
stopping at the first raised exception — the shape of each `for` loop with
`pages.update(...)` in the script. -/
def unionMap (f : J → Except Unit (Finset String)) : List J → Except Unit (Finset String)
  | [] => Except.ok ∅
  | x :: xs => do
      let a ← f x
      let b ← unionMap f xs
      Except.ok (a ∪ b)

/-- A tab of a product: its own `pages` when that key is present, else the
`pages` of each of its `groups` (the `elif` at line 49 of the script), else
nothing. -/
def extractTab (tab : J) : Except Unit (Finset String) :=
  match tab with
  | J.jobj kvs =>
      (match kvs.lookup "pages" with
       | some pv => extractPagesVal pv
       | none =>
         (match kvs.lookup "groups" with
          | some gv => do
              let gs ← iterElems gv
              unionMap extractGroup gs
          | none => Except.ok ∅))
  | _ => Except.ok ∅

/-- A dropdown of a product: the `pages` of each of its `tabs`. -/
def extractDropdown (d : J) : Except Unit (Finset String) :=
  match d with
  | J.jobj kvs =>
      (match kvs.lookup "tabs" with
       | some tv => do
           let ts ← iterElems tv
           unionMap extractGroup ts
       | none => Except.ok ∅)
  | _ => Except.ok ∅

/-- The `if "pages" in product` block of a product. -/
def productPagesPart (kvs : List (String × J)) : Except Unit (Finset String) :=
  match kvs.lookup "pages" with
  | some pv => extractPagesVal pv
  | none => Except.ok ∅

/-- The `if "tabs" in product` loop of a product. -/
def productTabsPart (kvs : List (String × J)) : Except Unit (Finset String) :=
  match kvs.lookup "tabs" with
  | some tv => do
      let ts ← iterElems tv
      unionMap extractTab ts
  | none => Except.ok ∅

/-- The `if "dropdowns" in product` loop of a product. -/
def productDropdownsPart (kvs : List (String × J)) : Except Unit (Finset String) :=
  match kvs.lookup "dropdowns" with
  | some dv => do
      let ds ← iterElems dv
      unionMap extractDropdown ds
  | none => Except.ok ∅

/-- The `if "groups" in product` loop of a product. -/
def productGroupsPart (kvs : List (String × J)) : Except Unit (Finset String) :=
  match kvs.lookup "groups" with
  | some gv => do
      let gs ← iterElems gv
      unionMap extractGroup gs
  | none => Except.ok ∅

/-- One product of the navigation: direct `pages`, then `tabs`, then
`dropdowns`, then `groups`, in the order the script visits them. -/
def extractProduct (product : J) : Except Unit (Finset String) :=
  match product with
  | J.jobj kvs => do
      let s1 ← productPagesPart kvs
      let s2 ← productTabsPart kvs
      let s3 ← productDropdownsPart kvs
      let s4 ← productGroupsPart kvs
      Except.ok (s1 ∪ s2 ∪ s3 ∪ s4)
  | _ => Except.ok ∅

/-- `extract_all_pages` from the script: `docs.get("navigation", {})`, then
`.get("products", [])`, then the union over the products. -/
def extract_all_pages (docs : J) : Except Unit (Finset String) := do
  let navigation ← dictGetD docs "navigation" (J.jobj [])
  let productsVal ← dictGetD navigation "products" (J.jarr [])
  let products ← iterElems productsVal
  unionMap extractProduct products

/-- The filter of line 138: keep only entries that are dicts carrying both a
`"source"` and a `"destination"` key. -/
def isDocRedirectEntry (r : J) : Bool :=
  match r with
  | J.jobj kvs => ((kvs.lookup "source").isSome && (kvs.lookup "destination").isSome)
  | _ => false

/-- The `doc_redirects` list comprehension of `main`. -/
def docRedirects (headRedirects : List J) : List J :=
  headRedirects.filter isDocRedirectEntry

/-- The loop of `main` over `sorted(removed_pages)`: the removed pages, in
order, whose redirect check came back `False`. -/
def pagesWithoutRedirectAux (doc_redirects : List J) :
    List String → Except Unit (List String)
  | [] => Except.ok []
  | p :: ps => do
      let b ← has_redirect_for_page p doc_redirects
      let rest ← pagesWithoutRedirectAux doc_redirects ps
      Except.ok (if b then rest else p :: rest)

/-- `pages_without_redirect` as `main` computes it: iterate the removed
pages in sorted order and keep those without a redirect. -/
def pages_without_redirect (removed_pages : Finset String)
    (doc_redirects : List J) : Except Unit (List String) :=
  pagesWithoutRedirectAux doc_redirects (removed_pages.sort (· ≤ ·))

/-- `main` from the script, over an abstract file system: `fsExists p`
models `Path(p).exists()` and `fsContent p` models `json.load(open(p))`
(`Except.error ()` being a raised exception, e.g. malformed JSON).  The
returned `Nat` is the exit status; `Except.error ()` is an uncaught
exception escaping `main`.  (Named `main'` because Lean reserves `main`.) -/
def main' (argv : List String) (fsExists : String → Bool)
    (fsContent : String → Except Unit J) : Except Unit Nat :=
  match argv with
  | [_, basePathArg, headPathArg] =>
    if fsExists basePathArg = false then Except.ok 2
    else if fsExists headPathArg = false then Except.ok 2
    else do
      let base_docs ← fsContent basePathArg
      let head_docs ← fsContent headPathArg
      let base_pages ← extract_all_pages base_docs
      let head_pages ← extract_all_pages head_docs
      let head_redirects ← dictGetD head_docs "redirects" (J.jarr [])
      let removed_pages := base_pages \ head_pages
      if removed_pages = ∅ then Except.ok 0
      else do
        let relems ← iterElems head_redirects
        let doc_redirects := docRedirects relems
        let uncovered ← pages_without_redirect removed_pages doc_redirects
        if uncovered = [] then Except.ok 0 else Except.ok 1
  | _ => Except.ok 2

/-- When every removed page's redirect check returns without raising, the
loop of `main` returns the (possibly empty) list of pages whose check came
back `False`, and that list is empty exactly when every check succeeded. -/
theorem pwrAux_spec (docRs : List J) (ps : List String)
    (h : ∀ p ∈ ps, ∃ b, has_redirect_for_page p docRs = Except.ok b) :
    ∃ l, pagesWithoutRedirectAux docRs ps = Except.ok l
      ∧ (l = [] ↔ ∀ p ∈ ps, has_redirect_for_page p docRs = Except.ok true) := by
  induction ps with
  | nil => exact ⟨[], rfl, by simp⟩
  | cons p ps ih =>
      obtain ⟨b, hb⟩ := h p (by simp)
      obtain ⟨l, hl, hiff⟩ := ih fun q hq => h q (by simp [hq])
      refine ⟨if b then l else p :: l, ?_, ?_⟩
      · simp only [pagesWithoutRedirectAux, hb, ebind_ok, hl]
      · cases b
        · simp [hb]
        · simp [hb, hiff]

/-- C3: The tool's exit status is exactly: 0 when the base page set minus
the head page set is empty, or when every removed page has a matching
redirect; 1 when at least one removed page has no matching redirect; 2 when
the argument count is wrong or an input file is missing — and in the
wrong-arity case the result does not depend on the file system at all (no
file is opened or parsed). -/
theorem main_exit_code_spec (ex : String → Bool) (ct : String → Except Unit J)
    (prog b h : String) :
    (∀ argv : List String, argv.length ≠ 3 →
      ∀ (ex2 : String → Bool) (ct2 : String → Except Unit J),
        main' argv ex2 ct2 = Except.ok 2)
    ∧ (ex b = false → main' [prog, b, h] ex ct = Except.ok 2)
    ∧ (ex b = true → ex h = false → main' [prog, b, h] ex ct = Except.ok 2)
    ∧ (∀ bd hd BP HP hrv, ex b = true → ex h = true →
        ct b = Except.ok bd → ct h = Except.ok hd →
        extract_all_pages bd = Except.ok BP →
        extract_all_pages hd = Except.ok HP →
        dictGetD hd "redirects" (J.jarr []) = Except.ok hrv →
        ((BP \ HP = ∅ → main' [prog, b, h] ex ct = Except.ok 0)
         ∧ ∀ relems, iterElems hrv = Except.ok relems →
             (∀ p ∈ BP \ HP,
               ∃ bb, has_redirect_for_page p (docRedirects relems) = Except.ok bb) →
             main' [prog, b, h] ex ct =
               Except.ok
                 (if ∀ p ∈ BP \ HP,
                     has_redirect_for_page p (docRedirects relems) = Except.ok true
                  then 0 else 1))) := by
  refine ⟨?_, ?_, ?_, ?_⟩
  · intro argv hlen ex2 ct2
    match argv with
    | [] => rfl
    | [_] => rfl
    | [_, _] => rfl
    | [_, _, _] => simp at hlen
    | _ :: _ :: _ :: _ :: _ => rfl
  · intro hb
    simp [main', hb]
  · intro hb hh
    simp [main', hb, hh]
  · intro bd hd BP HP hrv hb hh hctb hcth hbp hhp hred
    constructor
    · intro hrem
      simp only [main', hb, hh, hctb, hcth, hbp, hhp, hred, ebind_ok]
      rw [if_neg (by simp), if_neg (by simp), if_pos hrem]
    · intro relems hit htot
      obtain ⟨l, hl, hiff⟩ :=
        pwrAux_spec (docRedirects relems) ((BP \ HP).sort (· ≤ ·))
          fun p hp => htot p (Finset.mem_sort _ |>.mp hp)
      have hpwr : pages_without_redirect (BP \ HP) (docRedirects relems)
          = Except.ok l := hl
      have hiff2 : l = [] ↔ ∀ p ∈ BP \ HP,
          has_redirect_for_page p (docRedirects relems) = Except.ok true := by
        rw [hiff]
        constructor
        · intro hx p hp
          exact hx p (Finset.mem_sort _ |>.mpr hp)
        · intro hx p hp
          exact hx p (Finset.mem_sort _ |>.mp hp)
      by_cases hrem : BP \ HP = ∅
      · have hcov : ∀ p ∈ BP \ HP,
            has_redirect_for_page p (docRedirects relems) = Except.ok true := by
          intro p hp
          rw [hrem] at hp
          simp at hp
        simp only [main', hb, hh, hctb, hcth, hbp, hhp, hred, ebind_ok]
        rw [if_neg (by simp), if_neg (by simp), if_pos hrem, if_pos hcov]
      · simp only [main', hb, hh, hctb, hcth, hbp, hhp, hred, ebind_ok, hit, hpwr]
        rw [if_neg (by simp), if_neg (by simp), if_neg hrem]
        by_cases hl0 : l = []
        · rw [if_pos hl0, if_pos (hiff2.mp hl0)]
        · rw [if_neg hl0, if_neg fun hc => hl0 (hiff2.mpr hc)]

/-- A base `docs.json` whose navigation lists pages `a` and `b`. -/
def sampleBaseDoc : J :=
  J.jobj [("navigation", J.jobj [("products",
    J.jarr [J.jobj [("pages", J.jarr [J.jstr "a", J.jstr "b"])]])])]

/-- A head `docs.json` whose navigation lists only page `a`, with no
redirects. -/
def sampleHeadDoc : J :=
  J.jobj [("navigation", J.jobj [("products",
    J.jarr [J.jobj [("pages", J.jarr [J.jstr "a"])]])])]

/-- A file system holding `sampleBaseDoc` at `"base"` and `sampleHeadDoc`
elsewhere. -/
def sampleCt : String → Except Unit J := fun p =>
  if p = "base" then Except.ok sampleBaseDoc else Except.ok sampleHeadDoc

theorem main_exit_code_spec_witness :
    main' ["prog", "base", "head"] (fun _ => true) sampleCt = Except.ok 1 := by
  have hbp : extract_all_pages sampleBaseDoc = Except.ok {"a", "b"} := by
    simp [extract_all_pages, sampleBaseDoc, dictGetD, List.lookup, iterElems,
      unionMap, extractProduct, productPagesPart, productTabsPart,
      productDropdownsPart, productGroupsPart, extractPagesVal,
      extract_pages_from_pages_array, ebind_ok]
  have hhp : extract_all_pages sampleHeadDoc = Except.ok {"a"} := by
    simp [extract_all_pages, sampleHeadDoc, dictGetD, List.lookup, iterElems,
      unionMap, extractProduct, productPagesPart, productTabsPart,
      productDropdownsPart, productGroupsPart, extractPagesVal,
      extract_pages_from_pages_array, ebind_ok]
  have hred : dictGetD sampleHeadDoc "redirects" (J.jarr []) =
      Except.ok (J.jarr []) := by
    simp [sampleHeadDoc, dictGetD, List.lookup]
  have H := (main_exit_code_spec (fun _ => true) sampleCt "prog" "base" "head").2.2.2
    sampleBaseDoc sampleHeadDoc {"a", "b"} {"a"} (J.jarr [])
    rfl rfl (by simp [sampleCt]) (by simp [sampleCt]) hbp hhp hred
  have H2 := H.2 [] rfl (fun p hp => ⟨false, rfl⟩)
  rw [H2, if_neg (by decide)]

/-- C6: The page identifiers `""`, `"/"` and `"/index.mdx"` all normalize
(with the matcher's empty-to-`"index"` mapping) to the sentinel `"index"`,
so the redirect matcher treats all three identically against every redirect
table. -/
theorem root_page_equivalence :
    normalizeOrIndex "" = "index" ∧ normalizeOrIndex "/" = "index"
    ∧ normalizeOrIndex "/index.mdx" = "index"
    ∧ ∀ rs : List J,
        has_redirect_for_page "" rs = has_redirect_for_page "/" rs
        ∧ has_redirect_for_page "/" rs = has_redirect_for_page "/index.mdx" rs := by
  refine ⟨by decide, by decide, by decide, fun rs => ?_⟩
  unfold has_redirect_for_page
  rw [show normalizeOrIndex "" = "index" from by decide,
    show normalizeOrIndex "/" = "index" from by decide,
    show normalizeOrIndex "/index.mdx" = "index" from by decide]
  exact ⟨rfl, rfl⟩

/-- C10: When the matcher meets a rule with no `source` field, it
substitutes the default `""`, which normalizes to `"index"`; so a page
whose identifier normalizes to `"index"` is reported covered by such a
source-less rule. -/
theorem sourceless_rule_covers_index (p : String) (kvs : List (String × J))
    (rest : List J) (hs : kvs.lookup "source" = none)
    (hp : normalizeOrIndex p = "index") :
    has_redirect_for_page p (J.jobj kvs :: rest) = Except.ok true := by
  simp only [has_redirect_for_page, hasRedirectAux, dictGetD, hs,
    Option.getD_none, ebind_ok, asString, hp]
  rw [if_pos (by decide)]

theorem sourceless_rule_covers_index_witness :
    has_redirect_for_page "/" [J.jobj [("destination", J.jstr "/home")]]
      = Except.ok true :=
  sourceless_rule_covers_index "/" [("destination", J.jstr "/home")] []
    (by simp [List.lookup]) (by decide)

/-- C4: An entry of the redirect table that is not a dict carrying both a
`source` and a `destination` field is filtered out before the matcher runs,
so inserting such an entry anywhere in the table changes neither the
filtered table nor the computed list of uncovered pages. -/
theorem malformed_redirect_entries_ignored (e : J)
    (he : isDocRedirectEntry e = false) (l1 l2 : List J)
    (removed : Finset String) :
    docRedirects (l1 ++ e :: l2) = docRedirects (l1 ++ l2)
    ∧ pages_without_redirect removed (docRedirects (l1 ++ e :: l2))
      = pages_without_redirect removed (docRedirects (l1 ++ l2)) := by
  have h1 : docRedirects (l1 ++ e :: l2) = docRedirects (l1 ++ l2) := by
    simp [docRedirects, List.filter_append, List.filter_cons, he]
  exact ⟨h1, by rw [h1]⟩

theorem malformed_redirect_entries_ignored_witness :
    docRedirects [J.jobj [("source", J.jstr "/x")],
        J.jobj [("source", J.jstr "/a"), ("destination", J.jstr "/b")]]
      = docRedirects [J.jobj [("source", J.jstr "/a"), ("destination", J.jstr "/b")]]
    ∧ pages_without_redirect {"a"}
        (docRedirects [J.jobj [("source", J.jstr "/x")],
          J.jobj [("source", J.jstr "/a"), ("destination", J.jstr "/b")]])
      = pages_without_redirect {"a"}
        (docRedirects [J.jobj [("source", J.jstr "/a"), ("destination", J.jstr "/b")]]) :=
  malformed_redirect_entries_ignored (J.jobj [("source", J.jstr "/x")])
    (by simp [isDocRedirectEntry, List.lookup]) []
    [J.jobj [("source", J.jstr "/a"), ("destination", J.jstr "/b")]] {"a"}

/-- The list of uncovered pages `main` accumulates is a sublist of the
sorted removed pages it iterates. -/
theorem pwrAux_sublist (docRs : List J) (ps : List String) (l : List String)
    (h : pagesWithoutRedirectAux docRs ps = Except.ok l) :
    l.Sublist ps := by
  induction ps generalizing l with
  | nil =>
      simp only [pagesWithoutRedirectAux, Except.ok.injEq] at h
      subst h
      exact List.Sublist.refl _
  | cons p ps ih =>
      simp only [pagesWithoutRedirectAux] at h
      cases hb : has_redirect_for_page p docRs with
      | error e => rw [hb, ebind_err] at h; exact absurd h (by simp)
      | ok b =>
          rw [hb, ebind_ok] at h
          cases hr : pagesWithoutRedirectAux docRs ps with
          | error e => rw [hr, ebind_err] at h; exact absurd h (by simp)
          | ok rest =>
              rw [hr, ebind_ok] at h
              simp only [Except.ok.injEq] at h
              subst h
              cases b
              · exact List.Sublist.cons₂ p (ih rest hr)
              · exact List.Sublist.cons p (ih rest hr)

/-- C8: Whenever the redirect-coverage loop completes, the resulting list
of uncovered pages is sorted in ascending lexicographic string order. -/
theorem uncovered_pages_sorted (removed : Finset String) (docRs : List J)
    (uncov : List String)
    (h : pages_without_redirect removed docRs = Except.ok uncov) :
    List.Sorted (· ≤ ·) uncov :=
  (Finset.sort_sorted (· ≤ ·) removed).sublist
    (pwrAux_sublist docRs (removed.sort (· ≤ ·)) uncov h)

theorem uncovered_pages_sorted_witness :
    List.Sorted (· ≤ ·) ["b"] :=
  uncovered_pages_sorted {"b"} [] ["b"] (by
    simp only [pages_without_redirect, Finset.sort_singleton]
    rfl)

/-- C2: On a table whose entries all carry a string `source` field, the
matcher returns without raising, and returns `True` exactly when some
entry's normalized `source` (empty mapped to `"index"`) is literally equal
to the normalized page (no prefix or wildcard matching). -/
theorem hasRedirect_exact_match_iff (p : String) (rs : List J)
    (h : ∀ r ∈ rs, ∃ s, lookupField r "source" = some (J.jstr s)) :
    (has_redirect_for_page p rs = Except.ok true ↔
      ∃ r ∈ rs, ∃ s, lookupField r "source" = some (J.jstr s) ∧
        normalizeOrIndex s = normalizeOrIndex p)
    ∧ (has_redirect_for_page p rs = Except.ok true
       ∨ has_redirect_for_page p rs = Except.ok false) := by
  unfold has_redirect_for_page
  revert h
  induction rs with
  | nil =>
      intro h
      simp [hasRedirectAux]
  | cons r rest ih =>
      intro h
      obtain ⟨s, hs⟩ := h r (by simp)
      obtain ⟨ih1, ih2⟩ := ih fun q hq => h q (by simp [hq])
      cases r with
      | jstr t => simp [lookupField] at hs
      | jarr xs => simp [lookupField] at hs
      | jother => simp [lookupField] at hs
      | jobj kvs =>
          simp only [lookupField] at hs
          simp only [hasRedirectAux, dictGetD, hs, Option.getD_some, ebind_ok,
            asString]
          by_cases hm : normalizeOrIndex s = normalizeOrIndex p
          · rw [if_pos hm]
            refine ⟨⟨fun _ => ?_, fun _ => rfl⟩, Or.inl rfl⟩
            exact ⟨J.jobj kvs, List.mem_cons_self _ _, s,
              by rw [lookupField]; exact hs, hm⟩
          · rw [if_neg hm]
            refine ⟨?_, ih2⟩
            rw [ih1]
            constructor
            · rintro ⟨q, hq, s2, hs2, hm2⟩
              exact ⟨q, List.mem_cons_of_mem _ hq, s2, hs2, hm2⟩
            · rintro ⟨q, hq, s2, hs2, hm2⟩
              rcases List.mem_cons.mp hq with rfl | hq2
              · rw [lookupField, hs] at hs2
                simp only [Option.some.injEq, J.jstr.injEq] at hs2
                subst hs2
                exact absurd hm2 hm
              · exact ⟨q, hq2, s2, hs2, hm2⟩

theorem hasRedirect_exact_match_iff_witness :
    (has_redirect_for_page "a"
        [J.jobj [("source", J.jstr "/a.mdx"), ("destination", J.jstr "/b")]]
        = Except.ok true ↔
      ∃ r ∈ [J.jobj [("source", J.jstr "/a.mdx"), ("destination", J.jstr "/b")]],
        ∃ s, lookupField r "source" = some (J.jstr s) ∧
          normalizeOrIndex s = normalizeOrIndex "a")
    ∧ (has_redirect_for_page "a"
        [J.jobj [("source", J.jstr "/a.mdx"), ("destination", J.jstr "/b")]]
        = Except.ok true
       ∨ has_redirect_for_page "a"
        [J.jobj [("source", J.jstr "/a.mdx"), ("destination", J.jstr "/b")]]
        = Except.ok false) :=
  hasRedirect_exact_match_iff "a"
    [J.jobj [("source", J.jstr "/a.mdx"), ("destination", J.jstr "/b")]]
    (fun r hr => by
      rw [List.mem_singleton] at hr
      subst hr
      exact ⟨"/a.mdx", by simp [lookupField, List.lookup]⟩)

/-- A character list that does not begin with `'/'`. -/
def noLeadingSlash (l : List Char) : Prop := ∀ c, l.head? = some c → c ≠ '/'

theorem lstripSlash_cons (l : List Char) : lstripSlash ('/' :: l) = lstripSlash l := by
  simp [lstripSlash, List.dropWhile]

theorem lstripSlash_noLeadingSlash (l : List Char) : noLeadingSlash (lstripSlash l) := by
  induction l with
  | nil => intro c hc; simp [lstripSlash, List.dropWhile] at hc
  | cons a t ih =>
      by_cases ha : a = '/'
      · subst ha
        rw [lstripSlash_cons]
        exact ih
      · intro c hc
        simp [lstripSlash, List.dropWhile, ha] at hc
        subst hc
        exact ha

theorem lstripSlash_eq_self {l : List Char} (h : noLeadingSlash l) :
    lstripSlash l = l := by
  cases l with
  | nil => rfl
  | cons a t =>
      have ha := h a rfl
      simp [lstripSlash, List.dropWhile, ha]

theorem noLeadingSlash_take {l : List Char} (n : Nat) (h : noLeadingSlash l) :
    noLeadingSlash (l.take n) := by
  intro c hc
  apply h c
  cases l with
  | nil => simp at hc
  | cons a t =>
      cases n with
      | zero => simp at hc
      | succ m =>
          simp only [List.take_succ_cons, List.head?_cons] at hc ⊢
          exact hc

theorem noLeadingSlash_removesuffixMdx {l : List Char} (h : noLeadingSlash l) :
    noLeadingSlash (removesuffixMdx l) := by
  unfold removesuffixMdx
  split
  · exact noLeadingSlash_take _ h
  · exact h

theorem normalize_noLeadingSlash (p : String) :
    noLeadingSlash (normalize_page_for_comparison p).data :=
  noLeadingSlash_removesuffixMdx (lstripSlash_noLeadingSlash _)

theorem removesuffixMdx_eq_self {l : List Char}
    (h : mdxChars.isSuffixOf l = false) : removesuffixMdx l = l := by
  unfold removesuffixMdx
  rw [if_neg (by simp [h])]

theorem lstripSlash_append_mdx (l : List Char) :
    lstripSlash (l ++ mdxChars) = lstripSlash l ++ mdxChars := by
  induction l with
  | nil => decide
  | cons a t ih =>
      by_cases ha : a = '/'
      · subst ha
        rw [List.cons_append, lstripSlash_cons, lstripSlash_cons, ih]
      · simp [lstripSlash, List.dropWhile, ha]

theorem removesuffixMdx_append (x : List Char) :
    removesuffixMdx (x ++ mdxChars) = x := by
  unfold removesuffixMdx
  rw [if_pos (List.isSuffixOf_iff_suffix.mpr ⟨x, rfl⟩)]
  have hlen : (x ++ mdxChars).length - 4 = x.length := by simp [mdxChars]
  rw [hlen, List.take_left]

/-- C1 counterexample: with two leading slashes, normalization removes both
of them, not exactly one — the result is `"a/b"`, not `"/a/b"`. -/
theorem normalize_double_slash_counterexample :
    normalize_page_for_comparison "//a/b" ≠ "/a/b"
    ∧ normalize_page_for_comparison "//a/b" = "a/b" := ⟨by decide, by decide⟩

/-- C1 (amended): normalization strips ALL leading `'/'` characters (adding
a leading slash never changes the result, and the result never starts with
a slash), then strips a single trailing `".mdx"`; on `"//a/b"` it yields
`"a/b"`. -/
theorem normalize_strips_all_slashes_then_one_mdx :
    (∀ p : String, normalize_page_for_comparison ("/" ++ p)
        = normalize_page_for_comparison p)
    ∧ (∀ p : String, (normalize_page_for_comparison p).data.head? ≠ some '/')
    ∧ (∀ p : String, normalize_page_for_comparison (p ++ ".mdx")
        = ⟨lstripSlash p.data⟩)
    ∧ normalize_page_for_comparison "//a/b" = "a/b" := by
  refine ⟨fun p => ?_, fun p h => normalize_noLeadingSlash p '/' h rfl,
    fun p => ?_, by decide⟩
  · show (⟨removesuffixMdx (lstripSlash (("/" ++ p).data))⟩ : String)
        = ⟨removesuffixMdx (lstripSlash p.data)⟩
    have : ("/" ++ p).data = '/' :: p.data := rfl
    rw [this, lstripSlash_cons]
  · show (⟨removesuffixMdx (lstripSlash ((p ++ ".mdx").data))⟩ : String)
        = ⟨lstripSlash p.data⟩
    have : (p ++ ".mdx").data = p.data ++ mdxChars := rfl
    rw [this, lstripSlash_append_mdx, removesuffixMdx_append]

/-- C5 counterexample: normalization is not idempotent — `"x/y.mdx.mdx"`
normalizes to `"x/y.mdx"`, which normalizes further to `"x/y"`. -/
theorem normalize_idempotent_counterexample :
    normalize_page_for_comparison (normalize_page_for_comparison "x/y.mdx.mdx")
      ≠ normalize_page_for_comparison "x/y.mdx.mdx" := by decide

/-- C5 (amended): normalization is idempotent on every identifier whose
normalized form does not still end in `".mdx"` (the exception the
counterexample forces); `"/x/y.mdx"`, `"x/y.mdx"` and `"x/y"` all
normalize to `"x/y"`. -/
theorem normalize_idempotent_unless_mdx_suffix (p : String)
    (h : mdxChars.isSuffixOf (normalize_page_for_comparison p).data = false) :
    normalize_page_for_comparison (normalize_page_for_comparison p)
      = normalize_page_for_comparison p
    ∧ normalize_page_for_comparison "/x/y.mdx" = "x/y"
    ∧ normalize_page_for_comparison "x/y.mdx" = "x/y"
    ∧ normalize_page_for_comparison "x/y" = "x/y" := by
  refine ⟨?_, by decide, by decide, by decide⟩
  show (⟨removesuffixMdx (lstripSlash (normalize_page_for_comparison p).data)⟩
      : String) = normalize_page_for_comparison p
  rw [lstripSlash_eq_self (normalize_noLeadingSlash p), removesuffixMdx_eq_self h]

theorem normalize_idempotent_unless_mdx_suffix_witness :
    normalize_page_for_comparison (normalize_page_for_comparison "x/y.mdx")
      = normalize_page_for_comparison "x/y.mdx"
    ∧ normalize_page_for_comparison "/x/y.mdx" = "x/y"
    ∧ normalize_page_for_comparison "x/y.mdx" = "x/y"
    ∧ normalize_page_for_comparison "x/y" = "x/y" :=
  normalize_idempotent_unless_mdx_suffix "x/y.mdx" (by decide)

/-- The spec's traversal rule (§4.1), stated independently of the code: a
group (also a tab of a dropdown) contributes its `pages` when present. -/
def specGroupPages (g : J) : Except Unit (Finset String) :=
  match lookupField g "pages" with
  | some pv => extractPagesVal pv
  | none => Except.ok ∅

/-- The spec's traversal rule for a tab: its own `pages` if that key is
present, otherwise its `groups`' pages — a tab carrying both keys
contributes only its `pages`. -/
def specTabPages (tab : J) : Except Unit (Finset String) :=
  match lookupField tab "pages", lookupField tab "groups" with
  | some pv, _ => extractPagesVal pv
  | none, some gv => do
      let gs ← iterElems gv
      unionMap specGroupPages gs
  | none, none => Except.ok ∅

/-- The spec's traversal rule for a dropdown: the `pages` of each of its
`tabs`. -/
def specDropdownPages (d : J) : Except Unit (Finset String) :=
  match lookupField d "tabs" with
  | some tv => do
      let ts ← iterElems tv
      unionMap specGroupPages ts
  | none => Except.ok ∅

/-- The spec's traversal rule for one product: collect from each container
kind present — `pages`, `tabs`, `dropdowns`, `groups`. -/
def specProductPages (product : J) : Except Unit (Finset String) :=
  match product with
  | J.jobj _ => do
      let s1 ←
        (match lookupField product "pages" with
         | some pv => extractPagesVal pv
         | none => Except.ok ∅)
      let s2 ←
        (match lookupField product "tabs" with
         | some tv => do
             let ts ← iterElems tv
             unionMap specTabPages ts
         | none => Except.ok ∅)
      let s3 ←
        (match lookupField product "dropdowns" with
         | some dv => do
             let ds ← iterElems dv
             unionMap specDropdownPages ds
         | none => Except.ok ∅)
      let s4 ←
        (match lookupField product "groups" with
         | some gv => do
             let gs ← iterElems gv
             unionMap specGroupPages gs
         | none => Except.ok ∅)
      Except.ok (s1 ∪ s2 ∪ s3 ∪ s4)
  | _ => Except.ok ∅

/-- The spec's whole-document page set: the union over
`navigation.products` of each product's contribution. -/
def extract_all_pages_spec (docs : J) : Except Unit (Finset String) := do
  let navigation ← dictGetD docs "navigation" (J.jobj [])
  let productsVal ← dictGetD navigation "products" (J.jarr [])
  let products ← iterElems productsVal
  unionMap specProductPages products

theorem extractGroup_eq_spec : extractGroup = specGroupPages := by
  funext g
  cases g <;> rfl

theorem extractTab_eq_spec : extractTab = specTabPages := by
  funext t
  cases t with
  | jobj kvs =>
      unfold extractTab specTabPages
      rw [extractGroup_eq_spec]
      cases hp : kvs.lookup "pages" with
      | some pv => simp [lookupField, hp]
      | none =>
          cases hg : kvs.lookup "groups" with
          | some gv => simp [lookupField, hp, hg]
          | none => simp [lookupField, hp, hg]
  | jstr s => rfl
  | jarr xs => rfl
  | jother => rfl

theorem extractDropdown_eq_spec : extractDropdown = specDropdownPages := by
  funext d
  cases d with
  | jobj kvs =>
      unfold extractDropdown specDropdownPages
      rw [extractGroup_eq_spec]
      cases ht : kvs.lookup "tabs" with
      | some tv => simp [lookupField, ht]
      | none => simp [lookupField, ht]
  | jstr s => rfl
  | jarr xs => rfl
  | jother => rfl

theorem extractProduct_eq_spec : extractProduct = specProductPages := by
  funext product
  cases product with
  | jobj kvs =>
      unfold extractProduct productPagesPart productTabsPart
        productDropdownsPart productGroupsPart specProductPages
      rw [extractTab_eq_spec, extractDropdown_eq_spec, extractGroup_eq_spec]
      rfl
  | jstr s => rfl
  | jarr xs => rfl
  | jother => rfl

/-- C7: The extractor implements the spec's traversal rule — for every
product it collects, from each container kind present, exactly what §4.1
prescribes (`pages` directly; each tab's own `pages` if present, else its
`groups`' pages; each dropdown's tabs' `pages`; each group's `pages`), and
the whole-document extraction agrees with the spec-side traversal on every
document. -/
theorem extractor_matches_spec_traversal :
    (∀ product : J, extractProduct product = specProductPages product)
    ∧ ∀ docs : J, extract_all_pages docs = extract_all_pages_spec docs := by
  constructor
  · exact fun product => congrFun extractProduct_eq_spec product
  · intro docs
    unfold extract_all_pages extract_all_pages_spec
    rw [extractProduct_eq_spec]

/-- The string `s` occurs literally (as a string value) somewhere inside a
JSON value. -/
inductive OccursStr : String → J → Prop where
  | str (s : String) : OccursStr s (J.jstr s)
  | arrMem {s : String} {x : J} {xs : List J} :
      x ∈ xs → OccursStr s x → OccursStr s (J.jarr xs)
  | objVal {s k : String} {v : J} {kvs : List (String × J)} :
      (k, v) ∈ kvs → OccursStr s v → OccursStr s (J.jobj kvs)

/-- A successful lookup's key-value pair is a member of the association
list. -/
theorem mem_of_lookup_eq_some {α : Type} {kvs : List (String × α)} {k : String}
    {v : α} (h : kvs.lookup k = some v) : (k, v) ∈ kvs := by
  induction kvs with
  | nil => simp [List.lookup] at h
  | cons kv rest ih =>
      rw [List.lookup] at h
      by_cases hk : k == kv.1
      · simp only [hk, if_true, Option.some.injEq] at h
        subst h
        simp only [beq_iff_eq] at hk
        subst hk
        cases kv
        exact List.mem_cons_self _ _
      · simp only [hk] at h
        exact List.mem_cons_of_mem _ (ih h)

/-- An element of a `pages` array that the extractor silently skips: a
non-string non-dict value, or a dict without a `"pages"` key. -/
def skippedElem (x : J) : Prop :=
  x = J.jother ∨ (∃ xs, x = J.jarr xs)
    ∨ (∃ kvs, x = J.jobj kvs ∧ kvs.lookup "pages" = none)

/-- Unfolding of the extractor at a dict element without a `"pages"` key. -/
theorem extract_cons_jobj_none {kvs : List (String × J)} (rest : List J)
    (hp : kvs.lookup "pages" = none) :
    extract_pages_from_pages_array (J.jobj kvs :: rest)
      = extract_pages_from_pages_array rest := by
  simp only [extract_pages_from_pages_array]
  split
  · rename_i pv heq
    rw [hp] at heq
    simp at heq
  · rfl

/-- Unfolding of the extractor at a dict element whose `"pages"` value
iterates successfully. -/
theorem extract_cons_jobj_ok {kvs : List (String × J)} (rest : List J)
    {pv : J} {ys : List J} (hp : kvs.lookup "pages" = some pv)
    (hit : iterElems pv = Except.ok ys) :
    extract_pages_from_pages_array (J.jobj kvs :: rest)
      = (do
          let sub ← extract_pages_from_pages_array ys
          let r ← extract_pages_from_pages_array rest
          Except.ok (sub ∪ r)) := by
  simp only [extract_pages_from_pages_array]
  split
  · rename_i pv2 heq
    rw [hp] at heq
    simp only [Option.some.injEq] at heq
    subst heq
    split
    · rename_i ys2 heq2
      rw [hit] at heq2
      simp only [Except.ok.injEq] at heq2
      subst heq2
      rfl
    · rename_i e heq2
      rw [hit] at heq2
      simp at heq2
  · rename_i heq
    rw [hp] at heq
    simp at heq

/-- Unfolding of the extractor at a dict element whose `"pages"` value is
not iterable. -/
theorem extract_cons_jobj_err {kvs : List (String × J)} (rest : List J)
    {pv : J} {e : Unit} (hp : kvs.lookup "pages" = some pv)
    (hit : iterElems pv = Except.error e) :
    extract_pages_from_pages_array (J.jobj kvs :: rest) = Except.error e := by
  simp only [extract_pages_from_pages_array]
  split
  · rename_i pv2 heq
    rw [hp] at heq
    simp only [Option.some.injEq] at heq
    subst heq
    split
    · rename_i ys2 heq2
      rw [hit] at heq2
      simp at heq2
    · rename_i e2 heq2
      cases e
      cases e2
      rfl
  · rename_i heq
    rw [hp] at heq
    simp at heq

theorem extract_skips (x : J) (hx : skippedElem x) (l1 l2 : List J) :
    extract_pages_from_pages_array (l1 ++ x :: l2)
      = extract_pages_from_pages_array (l1 ++ l2) := by
  induction l1 with
  | nil =>
      rcases hx with rfl | ⟨xs, rfl⟩ | ⟨kvs, rfl, hnone⟩
      · simp only [List.nil_append, extract_pages_from_pages_array]
      · simp only [List.nil_append, extract_pages_from_pages_array]
      · rw [List.nil_append, List.nil_append, extract_cons_jobj_none _ hnone]
  | cons a t ih =>
      cases a with
      | jstr s =>
          simp only [List.cons_append, extract_pages_from_pages_array]
          rw [ih]
      | jother =>
          simp only [List.cons_append, extract_pages_from_pages_array]
          exact ih
      | jarr xs =>
          simp only [List.cons_append, extract_pages_from_pages_array]
          exact ih
      | jobj kvs =>
          rw [List.cons_append, List.cons_append]
          cases hp : kvs.lookup "pages" with
          | none =>
              rw [extract_cons_jobj_none _ hp, extract_cons_jobj_none _ hp]
              exact ih
          | some pv =>
              cases hit : iterElems pv with
              | error e =>
                  rw [extract_cons_jobj_err _ hp hit, extract_cons_jobj_err _ hp hit]
              | ok ys =>
                  rw [extract_cons_jobj_ok _ hp hit, extract_cons_jobj_ok _ hp hit, ih]

/-- C9 counterexample: the extractor is not total — on the parsed document
`{"navigation": {"products": [{"pages": null}]}}` the Python `for` loop
over the `pages` value raises, which the embedding reports as an
exception. -/
theorem extractor_raises_counterexample :
    extract_all_pages (J.jobj [("navigation", J.jobj [("products",
        J.jarr [J.jobj [("pages", J.jother)]])])]) = Except.error () := by
  simp [extract_all_pages, dictGetD, List.lookup, iterElems, unionMap,
    extractProduct, productPagesPart, productTabsPart, productDropdownsPart,
    productGroupsPart, extractPagesVal, ebind_ok, ebind_err]

/-- A `pages` array in which every nested `"pages"` value is itself a list
(the shape actual navigation documents have). -/
inductive WfPagesList : List J → Prop where
  | nil : WfPagesList []
  | str {s : String} {rest : List J} :
      WfPagesList rest → WfPagesList (J.jstr s :: rest)
  | objPages {kvs : List (String × J)} {ys rest : List J} :
      kvs.lookup "pages" = some (J.jarr ys) → WfPagesList ys →
      WfPagesList rest → WfPagesList (J.jobj kvs :: rest)
  | objNoPages {kvs : List (String × J)} {rest : List J} :
      kvs.lookup "pages" = none → WfPagesList rest →
      WfPagesList (J.jobj kvs :: rest)
  | arr {xs rest : List J} : WfPagesList rest → WfPagesList (J.jarr xs :: rest)
  | other {rest : List J} : WfPagesList rest → WfPagesList (J.jother :: rest)

/-- A well-formed `"pages"` field value: absent, or a well-formed list. -/
def WfPagesVal : Option J → Prop
  | some (J.jarr ys) => WfPagesList ys
  | some _ => False
  | none => True

/-- A well-formed group (the same shape serves a dropdown's tabs). -/
def WfGroup : J → Prop
  | J.jobj kvs => WfPagesVal (kvs.lookup "pages")
  | _ => True

/-- A well-formed tab: its `pages` when present, else its `groups`. -/
def WfTab : J → Prop
  | J.jobj kvs =>
      (match kvs.lookup "pages", kvs.lookup "groups" with
       | some pv, _ => WfPagesVal (some pv)
       | none, some (J.jarr gs) => ∀ g ∈ gs, WfGroup g
       | none, some _ => False
       | none, none => True)
  | _ => True

/-- A well-formed dropdown: its `tabs` value is a list of well-formed
tabs. -/
def WfDropdown : J → Prop
  | J.jobj kvs =>
      (match kvs.lookup "tabs" with
       | some (J.jarr ts) => ∀ t ∈ ts, WfGroup t
       | some _ => False
       | none => True)
  | _ => True

/-- A well-formed container field value: absent, or a list of entries each
satisfying `P`. -/
def WfContainerField (P : J → Prop) : Option J → Prop
  | some (J.jarr es) => ∀ e ∈ es, P e
  | some _ => False
  | none => True

/-- A well-formed product: each container key present holds a list of
well-formed entries. -/
def WfProduct : J → Prop
  | J.jobj kvs =>
      WfPagesVal (kvs.lookup "pages")
      ∧ WfContainerField WfTab (kvs.lookup "tabs")
      ∧ WfContainerField WfDropdown (kvs.lookup "dropdowns")
      ∧ WfContainerField WfGroup (kvs.lookup "groups")
  | _ => True

/-- A well-formed navigation document: a dict whose `navigation` (when
present) is a dict whose `products` (when present) is a list of
well-formed products. -/
def WfDoc : J → Prop
  | J.jobj dkvs =>
      (match dkvs.lookup "navigation" with
       | some (J.jobj nkvs) => WfContainerField WfProduct (nkvs.lookup "products")
       | some _ => False
       | none => True)
  | _ => False

/-- On a well-formed `pages` array the extractor succeeds, and every
collected string occurs literally in one of the array's elements. -/
theorem extract_pages_wf {items : List J} (h : WfPagesList items) :
    ∃ S, extract_pages_from_pages_array items = Except.ok S
      ∧ ∀ s ∈ S, ∃ j ∈ items, OccursStr s j := by
  induction h with
  | nil => exact ⟨∅, by simp only [extract_pages_from_pages_array], by simp⟩
  | str hrest ih =>
      obtain ⟨S, hS, hocc⟩ := ih
      rename_i s rest
      refine ⟨insert s S, ?_, ?_⟩
      · simp only [extract_pages_from_pages_array, hS, ebind_ok]
      · intro t ht
        rcases Finset.mem_insert.mp ht with rfl | htS
        · exact ⟨J.jstr t, by simp, OccursStr.str t⟩
        · obtain ⟨j, hj, ho⟩ := hocc t htS
          exact ⟨j, by simp [hj], ho⟩
  | objPages hlk hys hrest ihys ihrest =>
      obtain ⟨S1, hS1, ho1⟩ := ihys
      obtain ⟨S2, hS2, ho2⟩ := ihrest
      refine ⟨S1 ∪ S2, ?_, ?_⟩
      · rw [extract_cons_jobj_ok _ hlk rfl, hS1, ebind_ok, hS2, ebind_ok]
      · intro t ht
        rcases Finset.mem_union.mp ht with h1 | h2
        · obtain ⟨j, hj, ho⟩ := ho1 t h1
          exact ⟨J.jobj _, by simp,
            OccursStr.objVal (mem_of_lookup_eq_some hlk) (OccursStr.arrMem hj ho)⟩
        · obtain ⟨j, hj, ho⟩ := ho2 t h2
          exact ⟨j, by simp [hj], ho⟩
  | objNoPages hlk hrest ih =>
      obtain ⟨S, hS, hocc⟩ := ih
      refine ⟨S, ?_, ?_⟩
      · rw [extract_cons_jobj_none _ hlk]
        exact hS
      · intro t ht
        obtain ⟨j, hj, ho⟩ := hocc t ht
        exact ⟨j, by simp [hj], ho⟩
  | arr hrest ih =>
      obtain ⟨S, hS, hocc⟩ := ih
      refine ⟨S, by simp only [extract_pages_from_pages_array]; exact hS, ?_⟩
      intro t ht
      obtain ⟨j, hj, ho⟩ := hocc t ht
      exact ⟨j, by simp [hj], ho⟩
  | other hrest ih =>
      obtain ⟨S, hS, hocc⟩ := ih
      refine ⟨S, by simp only [extract_pages_from_pages_array]; exact hS, ?_⟩
      intro t ht
      obtain ⟨j, hj, ho⟩ := hocc t ht
      exact ⟨j, by simp [hj], ho⟩

/-- Lifting totality-with-occurrence through the sequential union of a
container's entries. -/
theorem unionMap_wf {f : J → Except Unit (Finset String)} {P : J → Prop}
    (hf : ∀ x, P x → ∃ S, f x = Except.ok S ∧ ∀ s ∈ S, OccursStr s x)
    {l : List J} (h : ∀ x ∈ l, P x) :
    ∃ S, unionMap f l = Except.ok S ∧ ∀ s ∈ S, ∃ x ∈ l, OccursStr s x := by
  induction l with
  | nil => exact ⟨∅, rfl, by simp⟩
  | cons x xs ih =>
      obtain ⟨S1, hS1, ho1⟩ := hf x (h x (by simp))
      obtain ⟨S2, hS2, ho2⟩ := ih fun y hy => h y (by simp [hy])
      refine ⟨S1 ∪ S2, ?_, ?_⟩
      · simp only [unionMap, hS1, ebind_ok, hS2]
      · intro t ht
        rcases Finset.mem_union.mp ht with h1 | h2
        · exact ⟨x, by simp, ho1 t h1⟩
        · obtain ⟨y, hy, ho⟩ := ho2 t h2
          exact ⟨y, by simp [hy], ho⟩

/-- On a well-formed group the extractor succeeds and collects only
strings occurring in the group. -/
theorem extractGroup_wf {g : J} (h : WfGroup g) :
    ∃ S, extractGroup g = Except.ok S ∧ ∀ s ∈ S, OccursStr s g := by
  cases g with
  | jobj kvs =>
      rw [WfGroup] at h
      cases hp : kvs.lookup "pages" with
      | none => exact ⟨∅, by simp [extractGroup, hp], by simp⟩
      | some pv =>
          rw [hp] at h
          cases pv with
          | jarr ys =>
              obtain ⟨S, hS, hocc⟩ := extract_pages_wf (h : WfPagesList ys)
              refine ⟨S, ?_, ?_⟩
              · simp only [extractGroup, hp, extractPagesVal, iterElems,
                  ebind_ok]
                exact hS
              · intro t ht
                obtain ⟨j, hj, ho⟩ := hocc t ht
                exact OccursStr.objVal (mem_of_lookup_eq_some hp)
                  (OccursStr.arrMem hj ho)
          | jstr s => exact absurd h (by simp [WfPagesVal])
          | jobj kvs2 => exact absurd h (by simp [WfPagesVal])
          | jother => exact absurd h (by simp [WfPagesVal])
  | jstr s => exact ⟨∅, rfl, by simp⟩
  | jarr xs => exact ⟨∅, rfl, by simp⟩
  | jother => exact ⟨∅, rfl, by simp⟩

/-- On a well-formed tab the extractor succeeds and collects only strings
occurring in the tab. -/
theorem extractTab_wf {t : J} (h : WfTab t) :
    ∃ S, extractTab t = Except.ok S ∧ ∀ s ∈ S, OccursStr s t := by
  cases t with
  | jobj kvs =>
      rw [WfTab] at h
      cases hp : kvs.lookup "pages" with
      | some pv =>
          rw [hp] at h
          cases pv with
          | jarr ys =>
              obtain ⟨S, hS, hocc⟩ := extract_pages_wf (h : WfPagesList ys)
              refine ⟨S, ?_, ?_⟩
              · simp only [extractTab, hp, extractPagesVal, iterElems, ebind_ok]
                exact hS
              · intro u hu
                obtain ⟨j, hj, ho⟩ := hocc u hu
                exact OccursStr.objVal (mem_of_lookup_eq_some hp)
                  (OccursStr.arrMem hj ho)
          | jstr s => exact absurd h (by simp [WfPagesVal])
          | jobj kvs2 => exact absurd h (by simp [WfPagesVal])
          | jother => exact absurd h (by simp [WfPagesVal])
      | none =>
          rw [hp] at h
          cases hg : kvs.lookup "groups" with
          | none => exact ⟨∅, by simp [extractTab, hp, hg], by simp⟩
          | some gv =>
              rw [hg] at h
              cases gv with
              | jarr gs =>
                  obtain ⟨S, hS, hocc⟩ :=
                    unionMap_wf (fun x hx => extractGroup_wf hx) (h : ∀ g ∈ gs, WfGroup g)
                  refine ⟨S, ?_, ?_⟩
                  · simp only [extractTab, hp, hg, iterElems, ebind_ok]
                    exact hS
                  · intro u hu
                    obtain ⟨g, hgmem, ho⟩ := hocc u hu
                    exact OccursStr.objVal (mem_of_lookup_eq_some hg)
                      (OccursStr.arrMem hgmem ho)
              | jstr s => exact absurd h (by simp)
              | jobj kvs2 => exact absurd h (by simp)
              | jother => exact absurd h (by simp)
  | jstr s => exact ⟨∅, rfl, by simp⟩
  | jarr xs => exact ⟨∅, rfl, by simp⟩
  | jother => exact ⟨∅, rfl, by simp⟩

/-- On a well-formed dropdown the extractor succeeds and collects only
strings occurring in the dropdown. -/
theorem extractDropdown_wf {d : J} (h : WfDropdown d) :
    ∃ S, extractDropdown d = Except.ok S ∧ ∀ s ∈ S, OccursStr s d := by
  cases d with
  | jobj kvs =>
      rw [WfDropdown] at h
      cases ht : kvs.lookup "tabs" with
      | none => exact ⟨∅, by simp [extractDropdown, ht], by simp⟩
      | some tv =>
          rw [ht] at h
          cases tv with
          | jarr ts =>
              obtain ⟨S, hS, hocc⟩ :=
                unionMap_wf (fun x hx => extractGroup_wf hx) (h : ∀ t ∈ ts, WfGroup t)
              refine ⟨S, ?_, ?_⟩
              · simp only [extractDropdown, ht, iterElems, ebind_ok]
                exact hS
              · intro u hu
                obtain ⟨g, hgmem, ho⟩ := hocc u hu
                exact OccursStr.objVal (mem_of_lookup_eq_some ht)
                  (OccursStr.arrMem hgmem ho)
          | jstr s => exact absurd h (by simp)
          | jobj kvs2 => exact absurd h (by simp)
          | jother => exact absurd h (by simp)
  | jstr s => exact ⟨∅, rfl, by simp⟩
  | jarr xs => exact ⟨∅, rfl, by simp⟩
  | jother => exact ⟨∅, rfl, by simp⟩

/-- On a well-formed `pages` field the product's direct-pages block
succeeds and collects only strings occurring in the product. -/
theorem productPagesPart_wf {kvs : List (String × J)}
    (h : WfPagesVal (kvs.lookup "pages")) :
    ∃ S, productPagesPart kvs = Except.ok S
      ∧ ∀ s ∈ S, OccursStr s (J.jobj kvs) := by
  cases hp : kvs.lookup "pages" with
  | none => exact ⟨∅, by simp [productPagesPart, hp], by simp⟩
  | some pv =>
      rw [hp] at h
      cases pv with
      | jarr ys =>
          obtain ⟨S, hS, hocc⟩ := extract_pages_wf (h : WfPagesList ys)
          refine ⟨S, ?_, ?_⟩
          · simp only [productPagesPart, hp, extractPagesVal, iterElems, ebind_ok]
            exact hS
          · intro t ht
            obtain ⟨j, hj, ho⟩ := hocc t ht
            exact OccursStr.objVal (mem_of_lookup_eq_some hp)
              (OccursStr.arrMem hj ho)
      | jstr s => exact absurd h (by simp [WfPagesVal])
      | jobj kvs2 => exact absurd h (by simp [WfPagesVal])
      | jother => exact absurd h (by simp [WfPagesVal])

/-- On a well-formed `tabs` field the product's tabs loop succeeds and
collects only strings occurring in the product. -/
theorem productTabsPart_wf {kvs : List (String × J)}
    (h : WfContainerField WfTab (kvs.lookup "tabs")) :
    ∃ S, productTabsPart kvs = Except.ok S
      ∧ ∀ s ∈ S, OccursStr s (J.jobj kvs) := by
  cases hk : kvs.lookup "tabs" with
  | none => exact ⟨∅, by simp [productTabsPart, hk], by simp⟩
  | some v =>
      rw [hk] at h
      cases v with
      | jarr ts =>
          obtain ⟨S, hS, hocc⟩ :=
            unionMap_wf (fun x hx => extractTab_wf hx) (h : ∀ t ∈ ts, WfTab t)
          refine ⟨S, ?_, ?_⟩
          · simp only [productTabsPart, hk, iterElems, ebind_ok]
            exact hS
          · intro u hu
            obtain ⟨t, htm, ho⟩ := hocc u hu
            exact OccursStr.objVal (mem_of_lookup_eq_some hk)
              (OccursStr.arrMem htm ho)
      | jstr s => exact absurd h (by simp [WfContainerField])
      | jobj kvs2 => exact absurd h (by simp [WfContainerField])
      | jother => exact absurd h (by simp [WfContainerField])

/-- On a well-formed `dropdowns` field the product's dropdowns loop
succeeds and collects only strings occurring in the product. -/
theorem productDropdownsPart_wf {kvs : List (String × J)}
    (h : WfContainerField WfDropdown (kvs.lookup "dropdowns")) :
    ∃ S, productDropdownsPart kvs = Except.ok S
      ∧ ∀ s ∈ S, OccursStr s (J.jobj kvs) := by
  cases hk : kvs.lookup "dropdowns" with
  | none => exact ⟨∅, by simp [productDropdownsPart, hk], by simp⟩
  | some v =>
      rw [hk] at h
      cases v with
      | jarr ds =>
          obtain ⟨S, hS, hocc⟩ :=
            unionMap_wf (fun x hx => extractDropdown_wf hx)
              (h : ∀ d ∈ ds, WfDropdown d)
          refine ⟨S, ?_, ?_⟩
          · simp only [productDropdownsPart, hk, iterElems, ebind_ok]
            exact hS
          · intro u hu
            obtain ⟨d, hdm, ho⟩ := hocc u hu
            exact OccursStr.objVal (mem_of_lookup_eq_some hk)
              (OccursStr.arrMem hdm ho)
      | jstr s => exact absurd h (by simp [WfContainerField])
      | jobj kvs2 => exact absurd h (by simp [WfContainerField])
      | jother => exact absurd h (by simp [WfContainerField])

/-- On a well-formed `groups` field the product's groups loop succeeds and
collects only strings occurring in the product. -/
theorem productGroupsPart_wf {kvs : List (String × J)}
    (h : WfContainerField WfGroup (kvs.lookup "groups")) :
    ∃ S, productGroupsPart kvs = Except.ok S
      ∧ ∀ s ∈ S, OccursStr s (J.jobj kvs) := by
  cases hk : kvs.lookup "groups" with
  | none => exact ⟨∅, by simp [productGroupsPart, hk], by simp⟩
  | some v =>
      rw [hk] at h
      cases v with
      | jarr gs =>
          obtain ⟨S, hS, hocc⟩ :=
            unionMap_wf (fun x hx => extractGroup_wf hx) (h : ∀ g ∈ gs, WfGroup g)
          refine ⟨S, ?_, ?_⟩
          · simp only [productGroupsPart, hk, iterElems, ebind_ok]
            exact hS
          · intro u hu
            obtain ⟨g, hgm, ho⟩ := hocc u hu
            exact OccursStr.objVal (mem_of_lookup_eq_some hk)
              (OccursStr.arrMem hgm ho)
      | jstr s => exact absurd h (by simp [WfContainerField])
      | jobj kvs2 => exact absurd h (by simp [WfContainerField])
      | jother => exact absurd h (by simp [WfContainerField])

/-- On a well-formed product the extractor succeeds and collects only
strings occurring in the product. -/
theorem extractProduct_wf {p : J} (h : WfProduct p) :
    ∃ S, extractProduct p = Except.ok S ∧ ∀ s ∈ S, OccursStr s p := by
  cases p with
  | jobj kvs =>
      obtain ⟨h1, h2, h3, h4⟩ := h
      obtain ⟨S1, hS1, ho1⟩ := productPagesPart_wf h1
      obtain ⟨S2, hS2, ho2⟩ := productTabsPart_wf h2
      obtain ⟨S3, hS3, ho3⟩ := productDropdownsPart_wf h3
      obtain ⟨S4, hS4, ho4⟩ := productGroupsPart_wf h4
      refine ⟨S1 ∪ S2 ∪ S3 ∪ S4, ?_, ?_⟩
      · simp only [extractProduct, hS1, ebind_ok, hS2, hS3, hS4]
      · intro t ht
        simp only [Finset.mem_union] at ht
        rcases ht with ((h | h) | h) | h
        · exact ho1 t h
        · exact ho2 t h
        · exact ho3 t h
        · exact ho4 t h
  | jstr s => exact ⟨∅, rfl, by simp⟩
  | jarr xs => exact ⟨∅, rfl, by simp⟩
  | jother => exact ⟨∅, rfl, by simp⟩

/-- On a well-formed document the whole extraction succeeds and every
collected page identifier occurs verbatim in the document. -/
theorem extract_all_pages_wf {d : J} (h : WfDoc d) :
    ∃ S, extract_all_pages d = Except.ok S ∧ ∀ s ∈ S, OccursStr s d := by
  cases d with
  | jobj dkvs =>
      rw [WfDoc] at h
      cases hn : dkvs.lookup "navigation" with
      | none =>
          refine ⟨∅, ?_, by simp⟩
          simp [extract_all_pages, dictGetD, hn, ebind_ok, iterElems, unionMap,
            List.lookup]
      | some nav =>
          rw [hn] at h
          cases nav with
          | jobj nkvs =>
              have h2 : WfContainerField WfProduct (nkvs.lookup "products") := h
              cases hp : nkvs.lookup "products" with
              | none =>
                  refine ⟨∅, ?_, by simp⟩
                  simp [extract_all_pages, dictGetD, hn, hp, ebind_ok, iterElems,
                    unionMap]
              | some pv =>
                  rw [hp] at h2
                  cases pv with
                  | jarr ps =>
                      obtain ⟨S, hS, hocc⟩ :=
                        unionMap_wf (fun x hx => extractProduct_wf hx)
                          (h2 : ∀ p ∈ ps, WfProduct p)
                      refine ⟨S, ?_, ?_⟩
                      · simp only [extract_all_pages, dictGetD, hn,
                          Option.getD_some, ebind_ok, hp, iterElems]
                        exact hS
                      · intro t ht
                        obtain ⟨pr, hpm, ho⟩ := hocc t ht
                        exact OccursStr.objVal (mem_of_lookup_eq_some hn)
                          (OccursStr.objVal (mem_of_lookup_eq_some hp)
                            (OccursStr.arrMem hpm ho))
                  | jstr s => exact absurd h2 (by simp [WfContainerField])
                  | jobj kvs2 => exact absurd h2 (by simp [WfContainerField])
                  | jother => exact absurd h2 (by simp [WfContainerField])
          | jstr s => exact absurd h (by simp)
          | jarr xs => exact absurd h (by simp)
          | jother => exact absurd h (by simp)
  | jstr s => exact absurd h (by simp [WfDoc])
  | jarr xs => exact absurd h (by simp [WfDoc])
  | jother => exact absurd h (by simp [WfDoc])

/-- C9 (amended): elements of a `pages` list that are neither strings nor
dicts-with-`pages`, are silently skipped; a product, a tab, a dropdown or a
group carrying none of its recognized container keys contributes nothing;
and on every document whose container values are lists (the extractor is
NOT total in general — see the counterexample) extraction succeeds and
returns only identifier strings that occur verbatim, unnormalized, in the
source document. -/
theorem extractor_skip_and_verbatim :
    (∀ x, skippedElem x → ∀ l1 l2,
        extract_pages_from_pages_array (l1 ++ x :: l2)
          = extract_pages_from_pages_array (l1 ++ l2))
    ∧ (∀ kvs : List (String × J), kvs.lookup "pages" = none →
        kvs.lookup "tabs" = none → kvs.lookup "dropdowns" = none →
        kvs.lookup "groups" = none →
        extractProduct (J.jobj kvs) = Except.ok ∅)
    ∧ (∀ kvs : List (String × J), kvs.lookup "pages" = none →
        kvs.lookup "groups" = none → extractTab (J.jobj kvs) = Except.ok ∅)
    ∧ (∀ kvs : List (String × J), kvs.lookup "tabs" = none →
        extractDropdown (J.jobj kvs) = Except.ok ∅)
    ∧ (∀ kvs : List (String × J), kvs.lookup "pages" = none →
        extractGroup (J.jobj kvs) = Except.ok ∅)
    ∧ ∀ docs, WfDoc docs →
        ∃ S, extract_all_pages docs = Except.ok S
          ∧ ∀ s ∈ S, OccursStr s docs := by
  refine ⟨extract_skips, ?_, ?_, ?_, ?_, fun docs hw => extract_all_pages_wf hw⟩
  · intro kvs hp ht hd hg
    simp [extractProduct, productPagesPart, productTabsPart,
      productDropdownsPart, productGroupsPart, hp, ht, hd, hg, ebind_ok]
  · intro kvs hp hg
    simp [extractTab, hp, hg]
  · intro kvs ht
    simp [extractDropdown, ht]
  · intro kvs hp
    simp [extractGroup, hp]

theorem extractor_skip_and_verbatim_witness :
    extract_pages_from_pages_array [J.jother, J.jstr "a"]
      = extract_pages_from_pages_array [J.jstr "a"]
    ∧ extractProduct (J.jobj [("icon", J.jstr "rocket")]) = Except.ok ∅
    ∧ extractTab (J.jobj [("icon", J.jstr "rocket")]) = Except.ok ∅
    ∧ extractDropdown (J.jobj [("icon", J.jstr "rocket")]) = Except.ok ∅
    ∧ extractGroup (J.jobj [("icon", J.jstr "rocket")]) = Except.ok ∅
    ∧ ∃ S, extract_all_pages sampleBaseDoc = Except.ok S
        ∧ ∀ s ∈ S, OccursStr s sampleBaseDoc := by
  refine ⟨extractor_skip_and_verbatim.1 J.jother (Or.inl rfl) [] [J.jstr "a"],
    extractor_skip_and_verbatim.2.1 [("icon", J.jstr "rocket")]
      (by simp [List.lookup]) (by simp [List.lookup]) (by simp [List.lookup])
      (by simp [List.lookup]),
    extractor_skip_and_verbatim.2.2.1 [("icon", J.jstr "rocket")]
      (by simp [List.lookup]) (by simp [List.lookup]),
    extractor_skip_and_verbatim.2.2.2.1 [("icon", J.jstr "rocket")]
      (by simp [List.lookup]),
    extractor_skip_and_verbatim.2.2.2.2.1 [("icon", J.jstr "rocket")]
      (by simp [List.lookup]),
    extractor_skip_and_verbatim.2.2.2.2.2 sampleBaseDoc ?_⟩
  simp [sampleBaseDoc, WfDoc, List.lookup, WfContainerField, WfProduct,
    WfPagesVal]
  exact WfPagesList.str (WfPagesList.str WfPagesList.nil)
